import Mathlib

/-!
Shallow embedding of the WaferDefectDetection pipeline
(`src/unnamed/part_000`, the canonical de-duplicated copy; the variant in
`src/UI.h` is embedded where a claim compares the two).

Modelling conventions:
* a raster image is a total function `ℤ × ℤ → ℕ` on pixel positions; the
  8-bit range is immaterial because every operation the claims touch
  (thresholding, min/max morphology, bitwise AND with a `{0,255}` mask)
  stays inside `{0,255}` or is order-theoretic;
* floating-point quantities (areas, ratios, aspect ratios) are modelled by
  `ℚ` with the source's literal constants taken exactly;
* OpenCV library internals that no claim depends on algorithmically
  (CLAHE, Gaussian blur, min-max normalisation, contour tracing, filled
  rasterisation, drawing primitives) are taken as explicit function
  parameters, so each theorem quantifies over every possible behaviour of
  those library routines; the structuring elements, in contrast, are the
  concrete elliptical kernels OpenCV produces for sizes 3, 7 and 15.
-/

namespace WaferDefect

abbrev Pos : Type := ℤ × ℤ

abbrev Image : Type := Pos → ℕ

abbrev Contour : Type := List Pos

/-- Offsets of a horizontally symmetric kernel: row `i` of `rows` spans
columns `-rows[i] .. rows[i]` at vertical offset `i - r`. -/
def kernelOfRows (r : ℤ) (rows : List ℕ) : List Pos :=
  (rows.enum.map (fun idx_dx =>
    (List.range (2 * idx_dx.2 + 1)).map
      (fun j => ((j : ℤ) - (idx_dx.2 : ℤ), (idx_dx.1 : ℤ) - r)))).flatten

/-- OpenCV `getStructuringElement(MORPH_ELLIPSE, {3,3})`: the 3×3 cross. -/
def ellipse3 : List Pos := kernelOfRows 1 [0, 1, 0]

/-- OpenCV `getStructuringElement(MORPH_ELLIPSE, {7,7})`. -/
def ellipse7 : List Pos := kernelOfRows 3 [0, 2, 3, 3, 3, 2, 0]

/-- OpenCV `getStructuringElement(MORPH_ELLIPSE, {15,15})`. -/
def ellipse15 : List Pos :=
  kernelOfRows 7 [0, 4, 5, 6, 6, 7, 7, 7, 7, 7, 6, 6, 5, 4, 0]

/-- Maximum of a list of 8-bit samples; `0` is the dilation identity
(OpenCV's constant border for dilation). -/
def listMax (l : List ℕ) : ℕ := l.foldr max 0

/-- Minimum of a list of 8-bit samples; `255` is the erosion identity
(OpenCV's constant border for erosion). -/
def listMin (l : List ℕ) : ℕ := l.foldr min 255

def translate (p k : Pos) : Pos := (p.1 + k.1, p.2 + k.2)

/-- Morphological dilation: per-pixel maximum over the structuring element. -/
def dilate (K : List Pos) (img : Image) : Image :=
  fun p => listMax (K.map (fun k => img (translate p k)))

/-- Morphological erosion: per-pixel minimum over the structuring element. -/
def erode (K : List Pos) (img : Image) : Image :=
  fun p => listMin (K.map (fun k => img (translate p k)))

/-- `cv::morphologyEx(…, MORPH_OPEN, K)` = dilation of the erosion. -/
def morphOpen (K : List Pos) (img : Image) : Image := dilate K (erode K img)

/-- `cv::morphologyEx(…, MORPH_CLOSE, K)` = erosion of the dilation. -/
def morphClose (K : List Pos) (img : Image) : Image := erode K (dilate K img)

/-- `cv::threshold(src, dst, t, 255, THRESH_BINARY)`: 255 where `src > t`. -/
def thresholdBin (t : ℕ) (img : Image) : Image :=
  fun p => if t < img p then 255 else 0

/-- `cv::bitwise_and` on 8-bit samples. -/
def bitwiseAnd (a b : Image) : Image := fun p => a p &&& b p

/-- `cv::countNonZero` restricted to the image's frame of pixels. -/
def countNonZero (frame : Finset Pos) (img : Image) : ℕ :=
  (frame.filter (fun p => img p ≠ 0)).card

def zeroImage : Image := fun _ => 0

/-- Cross product of two points, the summand of the shoelace formula. -/
def cross (a b : Pos) : ℤ := a.1 * b.2 - a.2 * b.1

/-- Twice the signed polygon area of a closed contour. -/
def shoelace2 (c : Contour) : ℤ :=
  ((c.zip (c.rotate 1)).map (fun q => cross q.1 q.2)).sum

/-- `cv::contourArea` (absolute value of the signed polygon area). -/
def contourArea (c : Contour) : ℚ := |(shoelace2 c : ℚ)| / 2

/-- Zeroth raw moment `cv::moments(c).m00`: the signed polygon area. -/
def moment00 (c : Contour) : ℚ := (shoelace2 c : ℚ) / 2

/-- First raw moment `m10` of a polygon contour (Green's formula). -/
def moment10 (c : Contour) : ℚ :=
  (((c.zip (c.rotate 1)).map
    (fun q => ((q.1.1 + q.2.1 : ℤ) : ℚ) * ((cross q.1 q.2 : ℤ) : ℚ))).sum) / 6

/-- First raw moment `m01` of a polygon contour (Green's formula). -/
def moment01 (c : Contour) : ℚ :=
  (((c.zip (c.rotate 1)).map
    (fun q => ((q.1.2 + q.2.2 : ℤ) : ℚ) * ((cross q.1 q.2 : ℤ) : ℚ))).sum) / 6

structure Rect where
  x : ℤ
  y : ℤ
  w : ℤ
  h : ℤ
deriving DecidableEq, Repr

def listMinZ (x : ℤ) (l : List ℤ) : ℤ := l.foldr min x

def listMaxZ (x : ℤ) (l : List ℤ) : ℤ := l.foldr max x

/-- `cv::boundingRect`: the tight axis-aligned integer bounding box
(width and height count pixels, hence the `+ 1`). -/
def boundingRect (c : Contour) : Rect :=
  match c with
  | [] => ⟨0, 0, 0, 0⟩
  | p :: ps =>
      let x0 := listMinZ p.1 (ps.map Prod.fst)
      let x1 := listMaxZ p.1 (ps.map Prod.fst)
      let y0 := listMinZ p.2 (ps.map Prod.snd)
      let y1 := listMaxZ p.2 (ps.map Prod.snd)
      ⟨x0, y0, x1 - x0 + 1, y1 - y0 + 1⟩

structure Defect where
  center : ℚ × ℚ
  boundingBox : Rect
  area : ℚ
  ar : ℚ
  type : String
deriving DecidableEq, Repr

/-- Aspect ratio `w / max(h, 1)` as computed in `analyze_defects`. -/
def aspectRatio (w h : ℚ) : ℚ := w / max h 1

/-- The canonical classification rule of `analyze_defects`
(`src/unnamed/part_000`, lines 112–120). -/
def classifyDefectType (area ar : ℚ) : String :=
  if (5/2 < ar ∨ ar ≤ 7/10) ∧ 5 < area then "scratch"
  else if 150 < area then "cluster"
  else "speck"

/-- The variant classification rule of `analyzeDefects`
(`src/UI.h`, lines 169–174). -/
def classifyDefectTypeUI (area ar : ℚ) : String :=
  if (5/2 < ar ∨ ar < 2/5) ∧ 20 < area then "scratch"
  else if 150 < area then "cluster"
  else "speck"

/-- The per-contour body of the `analyze_defects` loop: area, bounding box,
centroid from first moments, aspect ratio, and the canonical type. -/
def mkDefect (c : Contour) : Defect :=
  let area := contourArea c
  let bb := boundingRect c
  let ctr := (moment10 c / moment00 c, moment01 c / moment00 c)
  let ar := aspectRatio (bb.w : ℚ) (bb.h : ℚ)
  ⟨ctr, bb, area, ar, classifyDefectType area ar⟩

/-- Same loop body but with the `src/UI.h` classification thresholds. -/
def mkDefectUI (c : Contour) : Defect :=
  let area := contourArea c
  let bb := boundingRect c
  let ctr := (moment10 c / moment00 c, moment01 c / moment00 c)
  let ar := aspectRatio (bb.w : ℚ) (bb.h : ℚ)
  ⟨ctr, bb, area, ar, classifyDefectTypeUI area ar⟩

/-- `analyze_defects` (`src/unnamed/part_000`): find the exterior contours,
skip those of area `< 2.0`, and build a record for each survivor.
`findContours` abstracts `cv::findContours(…, RETR_EXTERNAL, …)`. -/
def analyze_defects (findContours : Image → List Contour)
    (defect_mask : Image) : List Defect :=
  (((findContours defect_mask).filter
    (fun c => decide (¬ contourArea c < 2))).map mkDefect)

/-- `analyzeDefects` (`src/UI.h`, lines 143–178), identical except for the
Scratch predicate's thresholds. -/
def analyzeDefectsUI (findContours : Image → List Contour)
    (defect_mask : Image) : List Defect :=
  (((findContours defect_mask).filter
    (fun c => decide (¬ contourArea c < 2))).map mkDefectUI)

/-- The cleaned binary mask inside `extract_lens_mask`: binarize above 8,
then close and open with the 15×15 elliptical element. -/
def cleanedLensMask (gray : Image) : Image :=
  morphOpen ellipse15 (morphClose ellipse15 (thresholdBin 8 gray))

/-- The largest-contour selection loop of `extract_lens_mask`
(`largest = 0; max_area = 0.0; if (a > max_area) …`), processing the
contour at list position `i` with accumulator `s = (largest, max_area)`. -/
def pickLargest : List Contour → ℕ → ℕ × ℚ → ℕ × ℚ
  | [], _, s => s
  | c :: cs, i, s =>
      pickLargest cs (i + 1)
        (if s.2 < contourArea c then (i, contourArea c) else s)

/-- Index of the selected contour: first index whose area strictly exceeds
every earlier running maximum (initialised to `0.0`). -/
def largestContourIdx (cs : List Contour) : ℕ :=
  (pickLargest cs 0 (0, 0)).1

/-- `extract_lens_mask` (`src/unnamed/part_000`): threshold at 8, close and
open with the 15×15 ellipse, find exterior contours; with no contour the
zero image is returned, otherwise the filled rasterisation (abstracted by
`fillContour`, for `cv::drawContours(…, FILLED)` into a zero canvas) of the
contour selected by the max-area loop. -/
def extract_lens_mask (findContours : Image → List Contour)
    (fillContour : Contour → Image) (gray : Image) : Image :=
  let contours := findContours (cleanedLensMask gray)
  if contours.isEmpty then zeroImage
  else fillContour (contours.getD (largestContourIdx contours) [])

/-- `correct_illumination` (`src/unnamed/part_000`): make an even blur size
odd by incrementing it, promote to float, estimate the background with a
Gaussian blur (abstracted by `gaussianBlur`), divide `(img+1)/(bg+1)`, and
min-max normalise over the mask (abstracted by `normalizeMinMax`). -/
def correct_illumination (gaussianBlur : (Pos → ℚ) → ℤ → (Pos → ℚ))
    (normalizeMinMax : (Pos → ℚ) → Image → Image)
    (gray mask : Image) (blur_size : ℤ) : Image :=
  let bs := if blur_size % 2 = 0 then blur_size + 1 else blur_size
  let floatGray : Pos → ℚ := fun p => (gray p : ℚ)
  let background := gaussianBlur floatGray bs
  let corrected : Pos → ℚ := fun p => (floatGray p + 1) / (background p + 1)
  normalizeMinMax corrected mask

/-- `detect_defects` (`src/unnamed/part_000`): CLAHE enhancement
(abstracted by `clahe`), white top-hat with the 7×7 ellipse, binarize above
`threshold`, open with the 3×3 ellipse, and AND with the lens mask. -/
def detect_defects (clahe : Image → Image)
    (corrected mask : Image) (threshold : ℕ) : Image :=
  let enhanced := clahe corrected
  let tophat : Image := fun p => enhanced p - morphOpen ellipse7 enhanced p
  let defect_mask := thresholdBin threshold tophat
  let opened := morphOpen ellipse3 defect_mask
  bitwiseAnd opened mask

/-- The defect-area ratio of `btnAnalyze_Click` (`src/UI.h`, lines
499–501): nonzero candidate pixels over nonzero mask pixels floored at 1. -/
def defectAreaRatio (frame : Finset Pos) (mask candidateMask : Image) : ℚ :=
  (countNonZero frame candidateMask : ℚ) /
    max (countNonZero frame mask : ℚ) 1

/-- The pass verdict: `ratio < 0.000005` (`src/UI.h`, line 502). -/
def verdictPass (frame : Finset Pos) (mask candidateMask : Image) : Bool :=
  decide (defectAreaRatio frame mask candidateMask < 1/200000)

abbrev Color : Type := ℕ × ℕ × ℕ

abbrev CImage : Type := Pos → Color

/-- The per-defect marker drawing of `build_annotated_display`: colour by
type, radius `max(8, sqrt(area)+4)`, a circle at the centre and the 1-based
index written beside it. -/
def drawMarker (drawCircle : CImage → ℚ × ℚ → ℕ → Color → CImage)
    (drawText : CImage → String → Pos → Color → CImage)
    (disp : CImage) (i : ℕ) (d : Defect) : CImage :=
  let color : Color :=
    if d.type = "scratch" then (0, 0, 255)
    else if d.type = "cluster" then (0, 165, 255)
    else (255, 0, 255)
  let radius : ℕ := max 8 (Nat.sqrt ⌊d.area⌋.toNat + 4)
  let disp2 := drawCircle disp d.center radius color
  drawText disp2 (toString (i + 1))
    (⌊d.center.1⌋ + (radius : ℤ) + 2, ⌊d.center.2⌋ + 4) color

/-- `build_annotated_display` (`src/unnamed/part_000`, lines 128–161):
convert the corrected image to colour (`cvtColor`), draw every exterior
contour of the mask (`drawAllContours`), then draw one marker per defect.
The `pass` and `ratio` arguments are accepted exactly as in the source. -/
def build_annotated_display (cvtColor : Image → CImage)
    (findContours : Image → List Contour)
    (drawAllContours : CImage → List Contour → CImage)
    (drawCircle : CImage → ℚ × ℚ → ℕ → Color → CImage)
    (drawText : CImage → String → Pos → Color → CImage)
    (corrected mask : Image) (defects : List Defect)
    ( pass : Bool) (ratio : ℚ) : CImage :=
  let display := cvtColor corrected
  let display := drawAllContours display (findContours mask)
  (defects.enum.foldl
    (fun disp id2 => drawMarker drawCircle drawText disp id2.1 id2.2)
    display)

/-- The elongation-and-size Scratch predicate of the canonical rule. -/
def ScratchCond (area ar : ℚ) : Prop := (5/2 < ar ∨ ar ≤ 7/10) ∧ 5 < area

lemma classifyDefectType_spec (area ar : ℚ) :
    (classifyDefectType area ar = "scratch" ↔ ScratchCond area ar) ∧
    (classifyDefectType area ar = "cluster" ↔
      ¬ ScratchCond area ar ∧ 150 < area) ∧
    (classifyDefectType area ar = "speck" ↔
      ¬ ScratchCond area ar ∧ ¬ 150 < area) := by
  unfold classifyDefectType ScratchCond
  split_ifs with h1 h2 <;>
    refine ⟨?_, ?_, ?_⟩ <;> simp_all

lemma mem_analyze_defects {findContours : Image → List Contour} {m : Image}
    {d : Defect} (hd : d ∈ analyze_defects findContours m) :
    ∃ c ∈ findContours m, ¬ contourArea c < 2 ∧ d = mkDefect c := by
  unfold analyze_defects at hd
  rcases List.mem_map.1 hd with ⟨c, hc, hdc⟩
  rcases List.mem_filter.1 hc with ⟨hmem, hfil⟩
  exact ⟨c, hmem, of_decide_eq_true hfil, hdc.symm⟩

/-- Claim C1: every contour retained by the classifier (area ≥ 2.0)
receives exactly one type by the ordered canonical rule: "scratch" iff the
elongation-and-size predicate holds, else "cluster" iff area > 150, else
"speck"; no retained defect is ambiguous. -/
theorem C1_classifier_exactly_one (findContours : Image → List Contour)
    (m : Image) (d : Defect) (hd : d ∈ analyze_defects findContours m) :
    2 ≤ d.area ∧
    d.type = classifyDefectType d.area d.ar ∧
    (d.type = "scratch" ↔ ScratchCond d.area d.ar) ∧
    (d.type = "cluster" ↔ ¬ ScratchCond d.area d.ar ∧ 150 < d.area) ∧
    (d.type = "speck" ↔ ¬ ScratchCond d.area d.ar ∧ ¬ 150 < d.area) := by
  rcases mem_analyze_defects hd with ⟨c, _, hge, rfl⟩
  have harea : (mkDefect c).area = contourArea c := rfl
  have htype :
      (mkDefect c).type = classifyDefectType (mkDefect c).area (mkDefect c).ar :=
    rfl
  refine ⟨?_, htype, ?_, ?_, ?_⟩
  · rw [harea]; exact le_of_not_lt hge
  · rw [htype]; exact (classifyDefectType_spec _ _).1
  · rw [htype]; exact (classifyDefectType_spec _ _).2.1
  · rw [htype]; exact (classifyDefectType_spec _ _).2.2

/-- A 3×3-pixel square contour (polygon area 4). -/
def squareContour : Contour := [(0, 0), (2, 0), (2, 2), (0, 2)]

/-- A concrete stand-in for `cv::findContours` returning one contour. -/
def oneSquareContours : Image → List Contour := fun _ => [squareContour]

lemma squareContour_kept :
    decide (¬ contourArea squareContour < 2) = true := by
  rw [decide_eq_true_iff]
  norm_num [contourArea, shoelace2, squareContour, cross, List.rotate]

lemma mem_analyze_square :
    mkDefect squareContour ∈ analyze_defects oneSquareContours zeroImage := by
  unfold analyze_defects oneSquareContours
  exact List.mem_map_of_mem _
    (List.mem_filter.2 ⟨List.mem_singleton_self _, squareContour_kept⟩)

theorem C1_classifier_exactly_one_witness :
    mkDefect squareContour ∈ analyze_defects oneSquareContours zeroImage ∧
    (2 ≤ (mkDefect squareContour).area ∧
     (mkDefect squareContour).type =
       classifyDefectType (mkDefect squareContour).area
         (mkDefect squareContour).ar ∧
     ((mkDefect squareContour).type = "scratch" ↔
       ScratchCond (mkDefect squareContour).area (mkDefect squareContour).ar) ∧
     ((mkDefect squareContour).type = "cluster" ↔
       ¬ ScratchCond (mkDefect squareContour).area
           (mkDefect squareContour).ar ∧
         150 < (mkDefect squareContour).area) ∧
     ((mkDefect squareContour).type = "speck" ↔
       ¬ ScratchCond (mkDefect squareContour).area
           (mkDefect squareContour).ar ∧
         ¬ 150 < (mkDefect squareContour).area)) :=
  ⟨mem_analyze_square,
   C1_classifier_exactly_one oneSquareContours zeroImage
     (mkDefect squareContour) mem_analyze_square⟩

/-- An 8×2-pixel bar contour (polygon area 7, aspect ratio 4). -/
def barContour : Contour := [(0, 0), (7, 0), (7, 1), (0, 1)]

/-- Claim C2: the two classifier variants are not extensionally equal —
on a candidate mask holding one 8×2 bar (area 7, aspect ratio 4) the
canonical rule labels it "scratch" while the `src/UI.h` rule labels it
"speck". -/
lemma barContour_area : contourArea barContour = 7 := by
  norm_num [contourArea, shoelace2, barContour, cross, List.rotate]

lemma barContour_kept : decide (¬ contourArea barContour < 2) = true := by
  rw [decide_eq_true_iff, barContour_area]
  norm_num

lemma mkDefect_bar_type : (mkDefect barContour).type = "scratch" := by
  norm_num [mkDefect, classifyDefectType, contourArea, shoelace2, barContour,
    cross, List.rotate, aspectRatio, boundingRect, listMinZ, listMaxZ]

lemma mkDefectUI_bar_type : (mkDefectUI barContour).type = "speck" := by
  norm_num [mkDefectUI, classifyDefectTypeUI, contourArea, shoelace2,
    barContour, cross, List.rotate, aspectRatio, boundingRect, listMinZ,
    listMaxZ]

theorem C2_variants_not_equal :
    ∃ (findContours : Image → List Contour) (candidateMask : Image),
      (analyze_defects findContours candidateMask).map Defect.type ≠
        (analyzeDefectsUI findContours candidateMask).map Defect.type := by
  refine ⟨fun _ => [barContour], zeroImage, ?_⟩
  have hfil : List.filter (fun c => decide (¬ contourArea c < 2))
      [barContour] = [barContour] := by
    rw [@List.filter_cons_of_pos _ (fun c => decide (¬ contourArea c < 2))
      barContour [] barContour_kept, List.filter_nil]
  have e1 : (analyze_defects (fun _ => [barContour]) zeroImage).map
      Defect.type = ["scratch"] := by
    show List.map Defect.type (List.map mkDefect
      (List.filter (fun c => decide (¬ contourArea c < 2)) [barContour])) =
        ["scratch"]
    rw [hfil, List.map_singleton, List.map_singleton, mkDefect_bar_type]
  have e2 : (analyzeDefectsUI (fun _ => [barContour]) zeroImage).map
      Defect.type = ["speck"] := by
    show List.map Defect.type (List.map mkDefectUI
      (List.filter (fun c => decide (¬ contourArea c < 2)) [barContour])) =
        ["speck"]
    rw [hfil, List.map_singleton, List.map_singleton, mkDefectUI_bar_type]
  rw [e1, e2]
  decide

/-- A binary 8-bit sample, as produced by `cv::threshold(…, 255, BINARY)`. -/
def IsBin (n : ℕ) : Prop := n = 0 ∨ n = 255

lemma isBin_thresholdBin (t : ℕ) (img : Image) (p : Pos) :
    IsBin (thresholdBin t img p) := by
  unfold thresholdBin IsBin
  split_ifs <;> simp

lemma listMax_map_mono (K : List Pos) (f g : Pos → ℕ)
    (h : ∀ k ∈ K, f k ≤ g k) : listMax (K.map f) ≤ listMax (K.map g) := by
  induction K with
  | nil => simp [listMax]
  | cons a l ih =>
      simp only [List.map_cons, listMax, List.foldr_cons]
      exact max_le_max (h a (by simp))
        (ih fun k hk => h k (List.mem_cons_of_mem _ hk))

lemma listMin_map_mono (K : List Pos) (f g : Pos → ℕ)
    (h : ∀ k ∈ K, f k ≤ g k) : listMin (K.map f) ≤ listMin (K.map g) := by
  induction K with
  | nil => simp [listMin]
  | cons a l ih =>
      simp only [List.map_cons, listMin, List.foldr_cons]
      exact min_le_min (h a (by simp))
        (ih fun k hk => h k (List.mem_cons_of_mem _ hk))

lemma isBin_max {a b : ℕ} (ha : IsBin a) (hb : IsBin b) : IsBin (max a b) := by
  unfold IsBin at ha hb ⊢
  rcases ha with rfl | rfl <;> rcases hb with rfl | rfl <;> decide

lemma isBin_min {a b : ℕ} (ha : IsBin a) (hb : IsBin b) : IsBin (min a b) := by
  unfold IsBin at ha hb ⊢
  rcases ha with rfl | rfl <;> rcases hb with rfl | rfl <;> decide

lemma isBin_listMax (l : List ℕ) (h : ∀ x ∈ l, IsBin x) :
    IsBin (listMax l) := by
  induction l with
  | nil => exact Or.inl rfl
  | cons a l ih =>
      simp only [listMax, List.foldr_cons]
      exact isBin_max (h a (by simp))
        (ih fun x hx => h x (List.mem_cons_of_mem _ hx))

lemma isBin_listMin (l : List ℕ) (h : ∀ x ∈ l, IsBin x) :
    IsBin (listMin l) := by
  induction l with
  | nil => exact Or.inr rfl
  | cons a l ih =>
      simp only [listMin, List.foldr_cons]
      exact isBin_min (h a (by simp))
        (ih fun x hx => h x (List.mem_cons_of_mem _ hx))

lemma dilate_mono (K : List Pos) (f g : Image) (h : ∀ p, f p ≤ g p)
    (p : Pos) : dilate K f p ≤ dilate K g p :=
  listMax_map_mono K _ _ (fun k _ => h (translate p k))

lemma erode_mono (K : List Pos) (f g : Image) (h : ∀ p, f p ≤ g p)
    (p : Pos) : erode K f p ≤ erode K g p :=
  listMin_map_mono K _ _ (fun k _ => h (translate p k))

lemma morphOpen_mono (K : List Pos) (f g : Image) (h : ∀ p, f p ≤ g p)
    (p : Pos) : morphOpen K f p ≤ morphOpen K g p :=
  dilate_mono K _ _ (erode_mono K f g h) p

lemma isBin_dilate (K : List Pos) (img : Image) (h : ∀ p, IsBin (img p))
    (p : Pos) : IsBin (dilate K img p) := by
  apply isBin_listMax
  intro x hx
  rcases List.mem_map.1 hx with ⟨k, _, rfl⟩
  exact h _

lemma isBin_erode (K : List Pos) (img : Image) (h : ∀ p, IsBin (img p))
    (p : Pos) : IsBin (erode K img p) := by
  apply isBin_listMin
  intro x hx
  rcases List.mem_map.1 hx with ⟨k, _, rfl⟩
  exact h _

lemma isBin_morphOpen (K : List Pos) (img : Image) (h : ∀ p, IsBin (img p))
    (p : Pos) : IsBin (morphOpen K img p) :=
  isBin_dilate K _ (isBin_erode K img h) p

lemma thresholdBin_anti (t1 t2 : ℕ) (h : t1 ≤ t2) (img : Image) (p : Pos) :
    thresholdBin t2 img p ≤ thresholdBin t1 img p := by
  unfold thresholdBin
  split_ifs <;> omega

lemma land_ne_zero_of_bin_le (a b m : ℕ) (ha : IsBin a) (hb : IsBin b)
    (hab : a ≤ b) (h : a &&& m ≠ 0) : b &&& m ≠ 0 := by
  rcases ha with h0 | h255
  · exact absurd (by rw [h0]; exact Nat.zero_and m) h
  · have hb255 : b = 255 := by
      rcases hb with g0 | g255
      · omega
      · exact g255
    rw [hb255, ← h255]
    exact h

lemma countNonZero_mono (frame : Finset Pos) (f g : Image)
    (h : ∀ p, f p ≠ 0 → g p ≠ 0) :
    countNonZero frame f ≤ countNonZero frame g := by
  apply Finset.card_le_card
  intro x hx
  rw [Finset.mem_filter] at hx ⊢
  exact ⟨hx.1, h x hx.2⟩

lemma detect_defects_zero_at (clahe : Image → Image)
    (corrected mask : Image) (threshold : ℕ) (p : Pos) (h : mask p = 0) :
    detect_defects clahe corrected mask threshold p = 0 := by
  show morphOpen ellipse3
      (thresholdBin threshold
        (fun q => clahe corrected q - morphOpen ellipse7 (clahe corrected) q))
      p &&& mask p = 0
  rw [h]
  exact Nat.and_zero _

/-- Claim C3: every foreground pixel of the candidate mask returned by
`detect_defects` is a foreground pixel of the lens mask, because the final
step is a bitwise AND with the mask: wherever the mask is 0, so is the
output (for any behaviour of the CLAHE enhancement). -/
theorem C3_mask_containment (clahe : Image → Image) (corrected mask : Image)
    (threshold : ℕ) (p : Pos) (h : mask p = 0) :
    detect_defects clahe corrected mask threshold p = 0 :=
  detect_defects_zero_at clahe corrected mask threshold p h

theorem C3_mask_containment_witness :
    zeroImage ((0 : ℤ), (0 : ℤ)) = 0 ∧
    detect_defects id zeroImage zeroImage 0 ((0 : ℤ), (0 : ℤ)) = 0 :=
  ⟨rfl, C3_mask_containment id zeroImage zeroImage 0 ((0 : ℤ), (0 : ℤ)) rfl⟩

/-- Claim C5: raising the extractor threshold never increases the
candidate-mask foreground pixel count: thresholding above a higher value
gives a pointwise-smaller binary image, the morphological opening is
monotone, and ANDing with the same mask preserves the inclusion. -/
theorem C5_threshold_monotone (clahe : Image → Image)
    (corrected mask : Image) (frame : Finset Pos) (t1 t2 : ℕ)
    (h : t1 ≤ t2) :
    countNonZero frame (detect_defects clahe corrected mask t2) ≤
      countNonZero frame (detect_defects clahe corrected mask t1) := by
  apply countNonZero_mono
  intro p hp
  have hb2 : IsBin (morphOpen ellipse3
      (thresholdBin t2
        (fun q => clahe corrected q - morphOpen ellipse7 (clahe corrected) q))
      p) :=
    isBin_morphOpen _ _ (fun q => isBin_thresholdBin _ _ q) p
  have hb1 : IsBin (morphOpen ellipse3
      (thresholdBin t1
        (fun q => clahe corrected q - morphOpen ellipse7 (clahe corrected) q))
      p) :=
    isBin_morphOpen _ _ (fun q => isBin_thresholdBin _ _ q) p
  have hle : morphOpen ellipse3
      (thresholdBin t2
        (fun q => clahe corrected q - morphOpen ellipse7 (clahe corrected) q))
      p ≤
      morphOpen ellipse3
        (thresholdBin t1
          (fun q => clahe corrected q - morphOpen ellipse7 (clahe corrected) q))
        p :=
    morphOpen_mono _ _ _ (fun q => thresholdBin_anti t1 t2 h _ q) p
  exact land_ne_zero_of_bin_le _ _ (mask p) hb2 hb1 hle hp

theorem C5_threshold_monotone_witness :
    (0 : ℕ) ≤ 5 ∧
    countNonZero {((0 : ℤ), (0 : ℤ))}
        (detect_defects id zeroImage zeroImage 5) ≤
      countNonZero {((0 : ℤ), (0 : ℤ))}
        (detect_defects id zeroImage zeroImage 0) :=
  ⟨Nat.zero_le 5,
   C5_threshold_monotone id zeroImage zeroImage {((0 : ℤ), (0 : ℤ))} 0 5
     (Nat.zero_le 5)⟩

/-- Claim C4: under the containment established for C3 (every candidate
foreground pixel lies in the lens mask), the defect-area ratio lies in
[0, 1]; it equals 0 whenever the candidate mask is empty on the frame, and
the verdict passes exactly when the ratio is strictly below 0.000005. -/
theorem C4_ratio_bounds (frame : Finset Pos) (mask candidateMask : Image)
    (hsub : ∀ p, candidateMask p ≠ 0 → mask p ≠ 0) :
    0 ≤ defectAreaRatio frame mask candidateMask ∧
    defectAreaRatio frame mask candidateMask ≤ 1 ∧
    ((∀ p ∈ frame, candidateMask p = 0) →
      defectAreaRatio frame mask candidateMask = 0) ∧
    (verdictPass frame mask candidateMask = true ↔
      defectAreaRatio frame mask candidateMask < 1/200000) := by
  have hmaxpos : (0 : ℚ) < max (countNonZero frame mask : ℚ) 1 :=
    lt_of_lt_of_le one_pos (le_max_right _ _)
  refine ⟨?_, ?_, ?_, ?_⟩
  · unfold defectAreaRatio
    positivity
  · unfold defectAreaRatio
    rw [div_le_one hmaxpos]
    calc (countNonZero frame candidateMask : ℚ)
        ≤ (countNonZero frame mask : ℚ) := by
          exact_mod_cast countNonZero_mono frame _ _ hsub
      _ ≤ max (countNonZero frame mask : ℚ) 1 := le_max_left _ _
  · intro hempty
    unfold defectAreaRatio
    have hzero : countNonZero frame candidateMask = 0 := by
      unfold countNonZero
      rw [Finset.card_eq_zero, Finset.filter_eq_empty_iff]
      intro p hp
      simp [hempty p hp]
    rw [hzero]
    norm_num
  · unfold verdictPass
    exact decide_eq_true_iff

theorem C4_ratio_bounds_witness :
    (∀ p : Pos, zeroImage p ≠ 0 → zeroImage p ≠ 0) ∧
    (0 ≤ defectAreaRatio {((0 : ℤ), (0 : ℤ))} zeroImage zeroImage ∧
     defectAreaRatio {((0 : ℤ), (0 : ℤ))} zeroImage zeroImage ≤ 1 ∧
     ((∀ p ∈ ({((0 : ℤ), (0 : ℤ))} : Finset Pos), zeroImage p = 0) →
       defectAreaRatio {((0 : ℤ), (0 : ℤ))} zeroImage zeroImage = 0) ∧
     (verdictPass {((0 : ℤ), (0 : ℤ))} zeroImage zeroImage = true ↔
       defectAreaRatio {((0 : ℤ), (0 : ℤ))} zeroImage zeroImage <
         1/200000)) :=
  ⟨fun _ h => h,
   C4_ratio_bounds {((0 : ℤ), (0 : ℤ))} zeroImage zeroImage (fun _ h => h)⟩

/-- Claim C8: an even blur size is silently bumped to the next odd value
before anything else happens, so the corrector's output at an even
`blur_size` is identical to its output at `blur_size + 1` (for any
behaviour of the Gaussian blur and of the min-max normalisation). -/
theorem C8_blur_parity (gaussianBlur : (Pos → ℚ) → ℤ → Pos → ℚ)
    (normalizeMinMax : (Pos → ℚ) → Image → Image) (gray mask : Image)
    (blur_size : ℤ) (h : blur_size % 2 = 0) :
    correct_illumination gaussianBlur normalizeMinMax gray mask blur_size =
      correct_illumination gaussianBlur normalizeMinMax gray mask
        (blur_size + 1) := by
  have h2 : ¬ (blur_size + 1) % 2 = 0 := by omega
  simp only [correct_illumination]
  rw [if_pos h, if_neg h2]

theorem C8_blur_parity_witness :
    (100 : ℤ) % 2 = 0 ∧
    correct_illumination (fun f _ => f) (fun _ m => m) zeroImage zeroImage
        100 =
      correct_illumination (fun f _ => f) (fun _ m => m) zeroImage zeroImage
        101 := by
  have h : (100 : ℤ) % 2 = 0 := by decide
  have h101 : (100 : ℤ) + 1 = 101 := by norm_num
  exact ⟨h, h101 ▸ C8_blur_parity (fun f _ => f) (fun _ m => m) zeroImage
    zeroImage 100 h⟩

/-- Claim C6: every record returned by `analyze_defects` has area ≥ 2.0
(smaller contours are skipped), and for every retained contour the zeroth
moment `m00` — the divisor of the centroid computation `m10/m00`,
`m01/m00` — is nonzero, because `|m00| = contourArea ≥ 2`. -/
theorem C6_area_floor (findContours : Image → List Contour) (m : Image) :
    (∀ d ∈ analyze_defects findContours m, 2 ≤ d.area) ∧
    (∀ c ∈ findContours m, ¬ contourArea c < 2 → moment00 c ≠ 0) := by
  constructor
  · intro d hd
    rcases mem_analyze_defects hd with ⟨c, _, hge, rfl⟩
    exact le_of_not_lt hge
  · intro c _ hge h0
    apply hge
    unfold moment00 at h0
    have hs : (shoelace2 c : ℚ) = 0 := by
      field_simp at h0
      exact_mod_cast h0
    unfold contourArea
    rw [hs]
    norm_num

/-- A 4×3-pixel rectangle contour (polygon area 6). -/
def rectContour : Contour := [(0, 0), (3, 0), (3, 2), (0, 2)]

/-- A concrete stand-in for `cv::findContours` returning one rectangle. -/
def oneRectContours : Image → List Contour := fun _ => [rectContour]

lemma rectContour_area : contourArea rectContour = 6 := by
  norm_num [contourArea, shoelace2, rectContour, cross, List.rotate]

lemma rectContour_kept : ¬ contourArea rectContour < 2 := by
  rw [rectContour_area]
  norm_num

lemma mem_analyze_rect :
    mkDefect rectContour ∈ analyze_defects oneRectContours zeroImage := by
  unfold analyze_defects oneRectContours
  exact List.mem_map_of_mem _
    (List.mem_filter.2 ⟨List.mem_singleton_self _,
      decide_eq_true_iff.2 rectContour_kept⟩)

theorem C6_area_floor_witness :
    mkDefect rectContour ∈ analyze_defects oneRectContours zeroImage ∧
    2 ≤ (mkDefect rectContour).area ∧
    moment00 rectContour ≠ 0 :=
  ⟨mem_analyze_rect,
   (C6_area_floor oneRectContours zeroImage).1 _ mem_analyze_rect,
   (C6_area_floor oneRectContours zeroImage).2 rectContour
     (List.mem_singleton_self _) rectContour_kept⟩

lemma contourArea_nonneg (c : Contour) : 0 ≤ contourArea c := by
  unfold contourArea
  positivity

lemma pickLargest_cons (c : Contour) (cs : List Contour) (i : ℕ)
    (s : ℕ × ℚ) :
    pickLargest (c :: cs) i s =
      pickLargest cs (i + 1)
        (if s.2 < contourArea c then (i, contourArea c) else s) := rfl

lemma pickLargest_spec (cs : List Contour) (i b : ℕ) (a : ℚ) :
    (pickLargest cs i (b, a) = (b, a) ∧
      ∀ j, j < cs.length → contourArea (cs.getD j []) ≤ a) ∨
    (∃ j, j < cs.length ∧
      pickLargest cs i (b, a) = (i + j, contourArea (cs.getD j [])) ∧
      a < contourArea (cs.getD j []) ∧
      (∀ k, k < cs.length →
        contourArea (cs.getD k []) ≤ contourArea (cs.getD j [])) ∧
      (∀ k, k < j →
        contourArea (cs.getD k []) < contourArea (cs.getD j []))) := by
  induction cs generalizing i b a with
  | nil =>
      left
      exact ⟨rfl, fun j hj => absurd hj (by simp)⟩
  | cons c cs ih =>
      by_cases hc : a < contourArea c
      · have hstep : pickLargest (c :: cs) i (b, a) =
            pickLargest cs (i + 1) (i, contourArea c) := by
          rw [pickLargest_cons, if_pos hc]
        rcases ih (i + 1) i (contourArea c) with
          ⟨heq, hall⟩ | ⟨j, hj, heq, hlt, hub, hstrict⟩
        · right
          refine ⟨0, by simp, ?_, ?_, ?_, ?_⟩
          · rw [hstep, heq]
            simp
          · simpa using hc
          · intro k hk
            cases k with
            | zero => exact le_refl _
            | succ k2 =>
                have hk2 : k2 < cs.length := by simpa using hk
                simpa using hall k2 hk2
          · intro k hk
            exact absurd hk (Nat.not_lt_zero k)
        · right
          refine ⟨j + 1, by simpa using hj, ?_, ?_, ?_, ?_⟩
          · rw [hstep, heq]
            have hi : (i + 1) + j = i + (j + 1) := by omega
            rw [hi]
            simp
          · simpa using lt_trans hc hlt
          · intro k hk
            cases k with
            | zero => simpa using le_of_lt hlt
            | succ k2 =>
                have hk2 : k2 < cs.length := by simpa using hk
                simpa using hub k2 hk2
          · intro k hk
            cases k with
            | zero => simpa using hlt
            | succ k2 =>
                have hk2 : k2 < j := by omega
                simpa using hstrict k2 hk2
      · have hstep : pickLargest (c :: cs) i (b, a) =
            pickLargest cs (i + 1) (b, a) := by
          rw [pickLargest_cons, if_neg hc]
        rcases ih (i + 1) b a with
          ⟨heq, hall⟩ | ⟨j, hj, heq, hlt, hub, hstrict⟩
        · left
          refine ⟨hstep.trans heq, ?_⟩
          intro k hk
          cases k with
          | zero => simpa using le_of_not_lt hc
          | succ k2 =>
              have hk2 : k2 < cs.length := by simpa using hk
              simpa using hall k2 hk2
        · right
          refine ⟨j + 1, by simpa using hj, ?_, ?_, ?_, ?_⟩
          · rw [hstep, heq]
            have hi : (i + 1) + j = i + (j + 1) := by omega
            rw [hi]
            simp
          · simpa using hlt
          · intro k hk
            cases k with
            | zero => simpa using le_of_lt (lt_of_le_of_lt (le_of_not_lt hc) hlt)
            | succ k2 =>
                have hk2 : k2 < cs.length := by simpa using hk
                simpa using hub k2 hk2
          · intro k hk
            cases k with
            | zero => simpa using lt_of_le_of_lt (le_of_not_lt hc) hlt
            | succ k2 =>
                have hk2 : k2 < j := by omega
                simpa using hstrict k2 hk2

/-- Claim C9: with at least one exterior contour in the cleaned mask,
`extract_lens_mask` rasterizes the filled interior of the selected contour,
and the selected index attains the maximum area while every earlier index
has strictly smaller area — so equal areas (including the all-zero case)
keep the first-encountered contour. -/
theorem C9_largest_contour_selection (findContours : Image → List Contour)
    (fillContour : Contour → Image) (gray : Image) (cs : List Contour)
    (hcs : findContours (cleanedLensMask gray) = cs) (hne : cs ≠ []) :
    extract_lens_mask findContours fillContour gray =
      fillContour (cs.getD (largestContourIdx cs) []) ∧
    largestContourIdx cs < cs.length ∧
    (∀ j, j < cs.length →
      contourArea (cs.getD j []) ≤
        contourArea (cs.getD (largestContourIdx cs) [])) ∧
    (∀ j, j < largestContourIdx cs →
      contourArea (cs.getD j []) <
        contourArea (cs.getD (largestContourIdx cs) [])) := by
  have hlen : 0 < cs.length := List.length_pos.2 hne
  have hempty : ¬ cs.isEmpty = true := by
    cases cs with
    | nil => exact absurd rfl hne
    | cons x xs => simp
  have hfill : extract_lens_mask findContours fillContour gray =
      fillContour (cs.getD (largestContourIdx cs) []) := by
    unfold extract_lens_mask
    rw [hcs, if_neg hempty]
  rcases pickLargest_spec cs 0 0 0 with
    ⟨heq, hall⟩ | ⟨j, hj, heq, _, hub, hstrict⟩
  · have hidx : largestContourIdx cs = 0 := by
      unfold largestContourIdx
      rw [heq]
    refine ⟨hfill, by omega, ?_, ?_⟩
    · intro j hjl
      rw [hidx]
      exact le_trans (hall j hjl) (contourArea_nonneg _)
    · intro j hjlt
      rw [hidx] at hjlt
      exact absurd hjlt (Nat.not_lt_zero j)
  · have hidx : largestContourIdx cs = j := by
      unfold largestContourIdx
      rw [heq]
      simp
    refine ⟨hfill, ?_, ?_, ?_⟩
    · rw [hidx]
      exact hj
    · intro k hk
      rw [hidx]
      exact hub k hk
    · intro k hk
      rw [hidx] at hk ⊢
      exact hstrict k hk

/-- A single-point contour (polygon area 0). -/
def dotContour : Contour := [(0, 0)]

/-- A concrete stand-in for `cv::findContours` returning one point. -/
def oneDotContours : Image → List Contour := fun _ => [dotContour]

theorem C9_largest_contour_selection_witness :
    oneDotContours (cleanedLensMask zeroImage) = [dotContour] ∧
    ([dotContour] : List Contour) ≠ [] ∧
    (extract_lens_mask oneDotContours (fun _ => zeroImage) zeroImage =
      (fun _ => zeroImage)
        (([dotContour] : List Contour).getD
          (largestContourIdx [dotContour]) []) ∧
     largestContourIdx [dotContour] <
       ([dotContour] : List Contour).length ∧
     (∀ j, j < ([dotContour] : List Contour).length →
       contourArea (([dotContour] : List Contour).getD j []) ≤
         contourArea (([dotContour] : List Contour).getD
           (largestContourIdx [dotContour]) [])) ∧
     (∀ j, j < largestContourIdx [dotContour] →
       contourArea (([dotContour] : List Contour).getD j []) <
         contourArea (([dotContour] : List Contour).getD
           (largestContourIdx [dotContour]) []))) :=
  ⟨rfl, by simp,
   C9_largest_contour_selection oneDotContours (fun _ => zeroImage)
     zeroImage [dotContour] rfl (by simp)⟩

lemma listMax_eq_zero (l : List ℕ) (h : ∀ x ∈ l, x = 0) :
    listMax l = 0 := by
  induction l with
  | nil => rfl
  | cons a l ih =>
      simp only [listMax, List.foldr_cons]
      have hrest := ih fun x hx => h x (List.mem_cons_of_mem _ hx)
      simp only [listMax] at hrest
      rw [h a (by simp), hrest]
      simp

lemma listMin_eq_zero (l : List ℕ) (hne : l ≠ []) (h : ∀ x ∈ l, x = 0) :
    listMin l = 0 := by
  cases l with
  | nil => exact absurd rfl hne
  | cons a l =>
      simp only [listMin, List.foldr_cons]
      rw [h a (by simp)]
      exact Nat.zero_min _

lemma dilate_zero (K : List Pos) (img : Image) (h : ∀ p, img p = 0)
    (p : Pos) : dilate K img p = 0 := by
  apply listMax_eq_zero
  intro x hx
  rcases List.mem_map.1 hx with ⟨k, _, rfl⟩
  exact h _

lemma erode_zero (K : List Pos) (hK : K ≠ []) (img : Image)
    (h : ∀ p, img p = 0) (p : Pos) : erode K img p = 0 := by
  apply listMin_eq_zero
  · simpa using hK
  · intro x hx
    rcases List.mem_map.1 hx with ⟨k, _, rfl⟩
    exact h _

lemma morphOpen_zero (K : List Pos) (hK : K ≠ []) (img : Image)
    (h : ∀ p, img p = 0) (p : Pos) : morphOpen K img p = 0 :=
  dilate_zero K _ (erode_zero K hK img h) p

lemma morphClose_zero (K : List Pos) (hK : K ≠ []) (img : Image)
    (h : ∀ p, img p = 0) (p : Pos) : morphClose K img p = 0 :=
  erode_zero K hK _ (dilate_zero K img h) p

lemma thresholdBin_zero (t : ℕ) (img : Image) (h : ∀ p, img p = 0)
    (p : Pos) : thresholdBin t img p = 0 := by
  unfold thresholdBin
  rw [h p]
  simp

lemma ellipse15_ne_nil : ellipse15 ≠ [] := by decide

lemma cleanedLensMask_zero (gray : Image) (hg : ∀ p, gray p = 0) (p : Pos) :
    cleanedLensMask gray p = 0 :=
  morphOpen_zero ellipse15 ellipse15_ne_nil _
    (morphClose_zero ellipse15 ellipse15_ne_nil _
      (thresholdBin_zero 8 gray hg)) p

/-- Claim C7: for an all-zero input image the lens segmenter returns the
all-zero mask (threshold 8 leaves no foreground, so there is no contour),
and the verdict step downstream reports an empty defect list, ratio 0
(denominator floored at 1) and a passing verdict — for every contour
finder that reports no contours on an empty mask. -/
theorem C7_all_zero_pipeline (findContours : Image → List Contour)
    (fillContour : Contour → Image)
    (gaussianBlur : (Pos → ℚ) → ℤ → Pos → ℚ)
    (normalizeMinMax : (Pos → ℚ) → Image → Image) (clahe : Image → Image)
    (frame : Finset Pos) (blur_size : ℤ) (t : ℕ) (gray : Image)
    (hg : ∀ p, gray p = 0)
    (hfc : ∀ img : Image, (∀ p, img p = 0) → findContours img = []) :
    (∀ p, extract_lens_mask findContours fillContour gray p = 0) ∧
    analyze_defects findContours
      (detect_defects clahe
        (correct_illumination gaussianBlur normalizeMinMax gray
          (extract_lens_mask findContours fillContour gray) blur_size)
        (extract_lens_mask findContours fillContour gray) t) = [] ∧
    defectAreaRatio frame (extract_lens_mask findContours fillContour gray)
      (detect_defects clahe
        (correct_illumination gaussianBlur normalizeMinMax gray
          (extract_lens_mask findContours fillContour gray) blur_size)
        (extract_lens_mask findContours fillContour gray) t) = 0 ∧
    verdictPass frame (extract_lens_mask findContours fillContour gray)
      (detect_defects clahe
        (correct_illumination gaussianBlur normalizeMinMax gray
          (extract_lens_mask findContours fillContour gray) blur_size)
        (extract_lens_mask findContours fillContour gray) t) = true := by
  have hmask : ∀ p, extract_lens_mask findContours fillContour gray p = 0 := by
    intro p
    unfold extract_lens_mask
    rw [hfc _ (cleanedLensMask_zero gray hg)]
    simp [zeroImage]
  have hcand : ∀ p,
      detect_defects clahe
        (correct_illumination gaussianBlur normalizeMinMax gray
          (extract_lens_mask findContours fillContour gray) blur_size)
        (extract_lens_mask findContours fillContour gray) t p = 0 :=
    fun p => detect_defects_zero_at _ _ _ _ p (hmask p)
  have hlist : analyze_defects findContours
      (detect_defects clahe
        (correct_illumination gaussianBlur normalizeMinMax gray
          (extract_lens_mask findContours fillContour gray) blur_size)
        (extract_lens_mask findContours fillContour gray) t) = [] := by
    unfold analyze_defects
    rw [hfc _ hcand]
    rfl
  have hcount : countNonZero frame
      (detect_defects clahe
        (correct_illumination gaussianBlur normalizeMinMax gray
          (extract_lens_mask findContours fillContour gray) blur_size)
        (extract_lens_mask findContours fillContour gray) t) = 0 := by
    unfold countNonZero
    rw [Finset.card_eq_zero, Finset.filter_eq_empty_iff]
    intro p hp
    simp [hcand p]
  have hratio : defectAreaRatio frame
      (extract_lens_mask findContours fillContour gray)
      (detect_defects clahe
        (correct_illumination gaussianBlur normalizeMinMax gray
          (extract_lens_mask findContours fillContour gray) blur_size)
        (extract_lens_mask findContours fillContour gray) t) = 0 := by
    unfold defectAreaRatio
    rw [hcount]
    norm_num
  refine ⟨hmask, hlist, hratio, ?_⟩
  unfold verdictPass
  rw [decide_eq_true_iff, hratio]
  norm_num

/-- A contour finder that never reports a contour. -/
def noContours : Image → List Contour := fun _ => []

theorem C7_all_zero_pipeline_witness :
    (∀ p : Pos, zeroImage p = 0) ∧
    (∀ img : Image, (∀ p, img p = 0) → noContours img = []) ∧
    ((∀ p, extract_lens_mask noContours (fun _ => zeroImage) zeroImage p
        = 0) ∧
     analyze_defects noContours
       (detect_defects id
         (correct_illumination (fun f _ => f) (fun _ m => m) zeroImage
           (extract_lens_mask noContours (fun _ => zeroImage) zeroImage) 100)
         (extract_lens_mask noContours (fun _ => zeroImage) zeroImage) 25)
       = [] ∧
     defectAreaRatio {((0 : ℤ), (0 : ℤ))}
       (extract_lens_mask noContours (fun _ => zeroImage) zeroImage)
       (detect_defects id
         (correct_illumination (fun f _ => f) (fun _ m => m) zeroImage
           (extract_lens_mask noContours (fun _ => zeroImage) zeroImage) 100)
         (extract_lens_mask noContours (fun _ => zeroImage) zeroImage) 25)
       = 0 ∧
     verdictPass {((0 : ℤ), (0 : ℤ))}
       (extract_lens_mask noContours (fun _ => zeroImage) zeroImage)
       (detect_defects id
         (correct_illumination (fun f _ => f) (fun _ m => m) zeroImage
           (extract_lens_mask noContours (fun _ => zeroImage) zeroImage) 100)
         (extract_lens_mask noContours (fun _ => zeroImage) zeroImage) 25)
       = true) :=
  ⟨fun _ => rfl, fun _ _ => rfl,
   C7_all_zero_pipeline noContours (fun _ => zeroImage) (fun f _ => f)
     (fun _ m => m) id {((0 : ℤ), (0 : ℤ))} 100 25 zeroImage
     (fun _ => rfl) (fun _ _ => rfl)⟩

/-- Claim C10: `build_annotated_display` never reads its `pass` and
`ratio` arguments, so its output is identical across any two values of
them, for all drawing primitives and inputs. -/
theorem C10_display_ignores_verdict (cvtColor : Image → CImage)
    (findContours : Image → List Contour)
    (drawAllContours : CImage → List Contour → CImage)
    (drawCircle : CImage → ℚ × ℚ → ℕ → Color → CImage)
    (drawText : CImage → String → Pos → Color → CImage)
    (corrected mask : Image) (defects : List Defect)
    (pass1 pass2 : Bool) (ratio1 ratio2 : ℚ) :
    build_annotated_display cvtColor findContours drawAllContours drawCircle
      drawText corrected mask defects pass1 ratio1 =
    build_annotated_display cvtColor findContours drawAllContours drawCircle
      drawText corrected mask defects pass2 ratio2 := rfl

end WaferDefect
